import Mathlib

/-
Verification of the dglink entity-store core (src/dglink/core/nodes.py,
src/dglink/core/edges.py, src/dglink/core/utils.py) and of the weighted
Jaccard similarity scorer (src/dglink/graph_embedding/jacquard_sim.py).

Python strings are modelled as `List Char`; Python dicts as association
lists in insertion order (assignment keeps the position of an existing
key, a fresh key is appended, as CPython guarantees); Python sets of
strings as duplicate-free lists compared by membership; Python numbers
as exact rationals.  Code paths that raise in Python are modelled with
`Option` (`none` = exception) where a claim depends on them.
-/

set_option maxRecDepth 4000

/-- Model of a Python string: its list of characters. -/
abbrev Str : Type := List Char

/-- Model of `s.replace(c, "")` for a single character `c`: drop every
occurrence of `c`. -/
def pyRemove (c : Char) (s : Str) : Str := s.filter (fun x => x ≠ c)

/-- Model of `s.replace('"', "").replace("'", "")`: strip double and
single quote characters (nodes.py line 74, edges.py line 77, and the
loaders at nodes.py line 104 / edges.py line 109). -/
def stripQ (s : Str) : Str := pyRemove '\'' (pyRemove '"' s)

/-- Model of the Python expression `a or b` on strings: the empty string
is falsy, so the result is `b` exactly when `a` is empty. -/
def pyOr (a b : Str) : Str := if a = [] then b else a

/-- Model of Python `s.split(sep)` for a one-character separator:
`"".split(";") = [""]` and separators at the ends produce empty chunks,
exactly as in Python. -/
def pySplit (c : Char) : Str → List Str
  | [] => [[]]
  | x :: xs =>
    if x = c then [] :: pySplit c xs
    else
      match pySplit c xs with
      | [] => [[x]]
      | h :: t => (x :: h) :: t

/-- Model of Python `sep.join(parts)` for a one-character separator. -/
def pyJoin (c : Char) : List Str → Str
  | [] => []
  | [s] => s
  | s :: rest => s ++ c :: pyJoin c rest

/-- Boolean test that `n` occurs at the start of `h`. -/
def startsW : Str → Str → Bool
  | [], _ => true
  | _ :: _, [] => false
  | n :: ns, h :: hs => n == h && startsW ns hs

/-- Model of the Python substring test `needle in hay`. -/
def pyInB (needle hay : Str) : Bool :=
  match hay with
  | [] => needle.isEmpty
  | _ :: hs => startsW needle hay || pyInB needle hs

/-- The substring relation stated structurally: `h` splits around `n`. -/
def hasSub (n h : Str) : Prop := ∃ p q, h = p ++ n ++ q

/-- Deduplication performed by the Python `set(...)` constructor on a
list of strings: keep the first occurrence of each member.  Python set
iteration order is unspecified; all set comparisons below are by
membership, never by position. -/
def pyDedup (l : List Str) : List Str := l.dedup

/-- A stored attribute value: Python keeps either a plain string or a
set of strings in a record slot. -/
inductive AttrVal : Type
  | s (v : Str)
  | set (l : List Str)
deriving DecidableEq

instance : Inhabited AttrVal := ⟨AttrVal.s []⟩

/-- A stored record (`self.nodes[key]` / `self.edges[key]`): a dict
from attribute name to value, in insertion order. -/
abbrev RecT : Type := List (Str × AttrVal)

/-- An entity store (`NodeSet.nodes` / `EdgeSet.edges`): a dict from
identity key to record. -/
abbrev Store : Type := List (Str × RecT)

/-- A record handed to an upsert by an extractor: a dict of plain
strings (the only value shape the in-repo callers pass). -/
abbrev Dict : Type := List (Str × Str)

/-- Python `d[k]` as a partial lookup (first matching key). -/
def dlookup {κ : Type} {α : Type} [DecidableEq κ] : List (κ × α) → κ → Option α
  | [], _ => none
  | (k', v) :: rest, k => if k' = k then some v else dlookup rest k

/-- Python `d[k] = v`: overwrite in place if the key exists, otherwise
append the new key at the end (CPython dict order). -/
def dassign {κ : Type} {α : Type} [DecidableEq κ] : List (κ × α) → κ → α → List (κ × α)
  | [], k, v => [(k, v)]
  | (k', v') :: rest, k, v =>
    if k' = k then (k, v) :: rest else (k', v') :: dassign rest k v

/-- Python `d.get(k, default)` on a string-valued dict. -/
def pyGetD (r : Dict) (k : Str) (d : Str) : Str := (dlookup r k).getD d

/-- Python `d.get(k, "")` on a record-valued dict (default is the empty
string). -/
def recGetD (r : RecT) (k : Str) : AttrVal := (dlookup r k).getD (AttrVal.s [])

/-! Schema constants from src/dglink/core/constants.py. -/

def NODE_ATTRIBUTES : List Str :=
  ["curie:ID".data, ":LABEL".data, "name".data, "iri".data,
   "source:string[]".data, "study_url".data, "raw_texts:string[]".data,
   "columns:string[]".data, "file_id:string[]".data, "PatientID".data,
   "AccessionNumber".data, "Modality".data, "PatientSex".data,
   "PatientAge".data, "SOPClassUID".data, "Manufacturer".data,
   "chrom".data, "pos".data, "ref".data, "alt".data, "genotype".data,
   "quality".data, "DOI".data, "tool_type".data]

def EDGE_ATTRIBUTES : List Str :=
  [":START_ID".data, ":END_ID".data, ":TYPE".data, "source:string[]".data,
   "jacquard_score".data, "score_cutoff".data, "intersection_score".data,
   "union_score".data, "shared_edges:string[]".data,
   "head_only_edges:string[]".data, "tail_only_edges:string[]".data,
   "edge_weights:string[]".data]

/-- The marker the upserts test with `"string[]" in x` (nodes.py line
69, edges.py line 69). -/
def SET_MARK : Str := "string[]".data

/-- The marker the loaders test with `":string[]" in attribute`
(nodes.py line 103, edges.py line 108). -/
def LOAD_SET_MARK : Str := ":string[]".data

def curieID : Str := "curie:ID".data
def startIDA : Str := ":START_ID".data
def endIDA : Str := ":END_ID".data
def typeA : Str := ":TYPE".data
def srcAttr : Str := "source:string[]".data
def nameAttr : Str := "name".data
def noIdS : Str := "no_id".data
def noStartS : Str := "no_start".data
def noEndS : Str := "no_end".data
def noTypeS : Str := "no_type".data

/-! Upsert operations, string-dict instance (NodeSet.update_nodes,
EdgeSet.update_edges at nodes.py 68-87 / edges.py 68-89). -/

/-- Python `set.add(x)`: no-op when the member is present, otherwise the
member joins the set.  The `AttrVal.s` case is where the source would
raise `AttributeError` (a string has no `.add`); it never arises on
stores whose multi-valued slots hold sets, which the theorems assume or
establish. -/
def setAdd : AttrVal → Str → AttrVal
  | AttrVal.set l, x => AttrVal.set (if x ∈ l then l else l ++ [x])
  | AttrVal.s v, _ => AttrVal.s v

/-- The existing-key branch of both upserts: for every attribute whose
name contains `string[]`, add the incoming value to the stored set when
it is non-empty after stripping quote characters; every other attribute
is untouched. -/
def updTouch (r : Dict) (entry : Str × AttrVal) : Str × AttrVal :=
  if pyInB SET_MARK entry.1 ∧ stripQ (pyGetD r entry.1 []) ≠ [] then
    (entry.1, setAdd entry.2 (pyGetD r entry.1 []))
  else entry

/-- The fresh-key branch of NodeSet.update_nodes: scalar attributes get
the incoming string, multi-valued attributes get `{value}` when the
value is non-empty and `{}` otherwise (`set([attr_val])`, nodes.py line
84). -/
def newNodeRec (r : Dict) : RecT :=
  NODE_ATTRIBUTES.map (fun a =>
    if pyInB SET_MARK a then
      (a, if pyGetD r a [] = [] then AttrVal.set []
          else AttrVal.set [pyGetD r a []])
    else (a, AttrVal.s (pyGetD r a [])))

/-- The identity key computed by NodeSet.update_nodes (line 70):
the explicit key if truthy, else `new_node.get('curie:ID', 'no_id')`. -/
def nodeKeyOf (r : Dict) (oid : Option Str) : Str :=
  pyOr (oid.getD []) (pyGetD r curieID noIdS)

/-- NodeSet.update_nodes on a string-valued record. -/
def updateNodes (s : Store) (r : Dict) (oid : Option Str) : Store :=
  let key := nodeKeyOf r oid
  match dlookup s key with
  | some old => dassign s key (old.map (updTouch r))
  | none => dassign s key (newNodeRec r)

/-- Python `set(v)` on a string `v`: the set of its characters
(edges.py line 87, `set(attr_val)` - unlike nodes.py, the string is not
wrapped in a list first). -/
def pyCharSet (v : Str) : List Str := v.dedup.map (fun c => [c])

/-- The fresh-key branch of EdgeSet.update_edges: scalar attributes get
the incoming string; a multi-valued attribute gets `set(value)` - the
set of the value's characters - when the value is non-empty. -/
def newEdgeRec (r : Dict) : RecT :=
  EDGE_ATTRIBUTES.map (fun a =>
    if pyInB SET_MARK a then
      (a, if pyGetD r a [] = [] then AttrVal.set []
          else AttrVal.set (pyCharSet (pyGetD r a [])))
    else (a, AttrVal.s (pyGetD r a [])))

/-- The identity key computed by EdgeSet.update_edges (lines 70-73):
`f'{id1}_{id2}:{id3}'` where each component is the explicit key if
truthy, else the record's `:START_ID` / `:END_ID` / `:TYPE` defaulting
to `no_start` / `no_end` / `no_type`.  The trailing `or new_edge_id` of
line 73 never fires because the f-string is never empty. -/
def edgeKeyOf (r : Dict) (oid : Option Str) : Str :=
  let id1 := pyOr (oid.getD []) (pyGetD r startIDA noStartS)
  let id2 := pyOr (oid.getD []) (pyGetD r endIDA noEndS)
  let id3 := pyOr (oid.getD []) (pyGetD r typeA noTypeS)
  id1 ++ '_' :: id2 ++ ':' :: id3

/-- EdgeSet.update_edges on a string-valued record. -/
def updateEdges (s : Store) (r : Dict) (oid : Option Str) : Store :=
  let key := edgeKeyOf r oid
  match dlookup s key with
  | some old => dassign s key (old.map (updTouch r))
  | none => dassign s key (newEdgeRec r)

/-! Graph serializer (NodeSet.write_node_set / EdgeSet.write_edge_set,
nodes.py 108-122 / edges.py 112-126). -/

/-- One serialized field: a set value is truncated to 20 members,
semicolon-joined and double-quoted; then (for both shapes) every
newline character is removed.  A record slot the schema names but the
record lacks would raise `KeyError` in the source; records written by
this program always carry the full schema, and `recGetD` returns `""`
in the impossible case. -/
def encodeVal : AttrVal → Str
  | AttrVal.s v => pyRemove '\n' v
  | AttrVal.set l => pyRemove '\n' ('"' :: (pyJoin ';' (l.take 20) ++ ['"']))

/-- The body of one serialized row: the `write_str += field + "\t"`
loop followed by the `write_str[:-1]` trim - fields joined by tabs. -/
def rowBody (attrs : List Str) (rec : RecT) : Str :=
  (((attrs.map (fun a => encodeVal (recGetD rec a))).map
    (fun f => f ++ ['\t'])).flatten).dropLast

/-- One serialized row: the body with its final newline. -/
def rowLine (attrs : List Str) (rec : RecT) : Str :=
  rowBody attrs rec ++ ['\n']

/-- The serialized file: a tab-joined header line then one row per
record in store order. -/
def writeStore (attrs : List Str) (s : Store) : Str :=
  (pyJoin '\t' attrs ++ ['\n']) ++ (s.map (fun kv => rowLine attrs kv.2)).flatten

def writeNodeSet (s : Store) : Str := writeStore NODE_ATTRIBUTES s

def writeEdgeSet (s : Store) : Str := writeStore EDGE_ATTRIBUTES s

/-! Loaders (NodeSet.load_node_set / EdgeSet.load_edge_set, nodes.py
89-105 / edges.py 91-110).  The pandas layer is modelled at string
level: the file splits into lines (blank lines skipped, as pandas
does), lines split on tabs, a row shorter than the header reads as
empty strings (pandas pads with NaN and `fillna` turns NaN into "").
pandas dtype inference and csv quote processing are not modelled: the
loader strips all quote characters from multi-valued fields itself,
and every claim below constrains values to be quote-, tab- and
semicolon-free where it matters. -/

/-- Decode one field: an attribute whose name contains `:string[]`
becomes the set of the `;`-separated chunks of the quote-stripped
field (so an empty field decodes to `{""}`); anything else stays a
plain string. -/
def decodeField (a : Str) (f : Str) : AttrVal :=
  if pyInB LOAD_SET_MARK a then AttrVal.set (pyDedup (pySplit ';' (stripQ f)))
  else AttrVal.s f

/-- Rebuild a record from the fields of a row, positionally aligned
with the attribute list; missing trailing fields read as empty. -/
def recOfFields (attrs : List Str) (fields : List Str) : RecT :=
  match attrs, fields with
  | [], _ => []
  | a :: as_, [] => (a, decodeField a []) :: recOfFields as_ []
  | a :: as_, f :: fs => (a, decodeField a f) :: recOfFields as_ fs

/-- The data rows of a serialized file: non-blank lines minus the
header. -/
def fileRows (content : Str) : List Str :=
  ((pySplit '\n' content).filter (fun l => l ≠ [])).drop 1

/-- One row of NodeSet.load_node_set: split on tabs, rebuild the
record, store it under the first field (`curie = row.iloc[0]`). -/
def nodeRowStep (st : Store) (row : Str) : Store :=
  dassign st ((pySplit '\t' row).getD 0 [])
    (recOfFields NODE_ATTRIBUTES (pySplit '\t' row))

/-- NodeSet.load_node_set row loop folded into an existing store. -/
def parseNodeInto (s : Store) (content : Str) : Store :=
  (fileRows content).foldl nodeRowStep s

/-- One row of EdgeSet.load_edge_set: the record is stored under
`f'{head}_{tail}_{relation}'` built from its first three fields. -/
def edgeRowStep (st : Store) (row : Str) : Store :=
  dassign st
    ((pySplit '\t' row).getD 0 [] ++ '_' ::
      (pySplit '\t' row).getD 1 [] ++ '_' :: (pySplit '\t' row).getD 2 [])
    (recOfFields EDGE_ATTRIBUTES (pySplit '\t' row))

/-- EdgeSet.load_edge_set row loop folded into an existing store. -/
def parseEdgeInto (s : Store) (content : Str) : Store :=
  (fileRows content).foldl edgeRowStep s

/-- The key EdgeSet.load_edge_set files a row under (edges.py 100-104). -/
def loadEdgeKey (head tail rel : Str) : Str :=
  head ++ '_' :: tail ++ '_' :: rel

/-- The key EdgeSet.update_edges files a record under (edges.py 70-73),
as a function of the three identity strings. -/
def updEdgeKey (start end_ type_ : Str) : Str :=
  start ++ '_' :: end_ ++ ':' :: type_

/-- A filesystem: path to file content, `none` when the path does not
exist (`os.path.exists`). -/
abbrev FS : Type := Str → Option Str

/-- NodeSet.load_node_set: on a missing path the method returns with
the store untouched; otherwise the rows fold into the store. -/
def loadNodeSet (fs : FS) (path : Str) (s : Store) : Store :=
  match fs path with
  | none => s
  | some content => parseNodeInto s content

/-- EdgeSet.load_edge_set: same shape as the node loader. -/
def loadEdgeSet (fs : FS) (path : Str) (s : Store) : Store :=
  match fs path with
  | none => s
  | some content => parseEdgeInto s content

/-! Resource merger (merge_resource_sets, utils.py 171-195).  The
records it feeds back into the upserts are loaded records whose
multi-valued slots hold sets, so the upserts are re-modelled here on
record-valued dicts, with `Option` capturing the places the source
raises: using a set as a dict key (`TypeError: unhashable`), calling
`.replace` on a set, or `.add` on a string.  (The source has a further
failure this value-level model deliberately ignores: loaded records are
`Node` / `Edge` objects, which have no `.get` method at all, so in
CPython `update_nodes(node_set.nodes[node_id])` raises
`AttributeError` before any of the logic below runs.) -/

/-- The existing-key branch of either upsert on a record-valued dict:
walk the stored record; on each `string[]` attribute the incoming value
must be a string (a set crashes `.replace`) and the stored value must
be a set (a string crashes `.add`). -/
def updTouchL (r : RecT) : RecT → Option RecT
  | [] => some []
  | (a, v) :: rest =>
    if pyInB SET_MARK a then
      match recGetD r a with
      | AttrVal.set _ => none
      | AttrVal.s w =>
        if stripQ w = [] then (updTouchL r rest).map (fun t => (a, v) :: t)
        else
          match v with
          | AttrVal.s _ => none
          | AttrVal.set l =>
            (updTouchL r rest).map
              (fun t => (a, AttrVal.set (if w ∈ l then l else l ++ [w])) :: t)
    else (updTouchL r rest).map (fun t => (a, v) :: t)

/-- The fresh-key branch of NodeSet.update_nodes on a record-valued
dict: `attr_val != ""` is true for every set (even the empty one), and
`set([attr_val]) if type(attr_val) == str else attr_val` keeps a set
as it is. -/
def newNodeRecL (r : RecT) : RecT :=
  NODE_ATTRIBUTES.map (fun a =>
    match pyInB SET_MARK a, recGetD r a with
    | true, AttrVal.s w =>
      (a, if w = [] then AttrVal.set [] else AttrVal.set [w])
    | true, AttrVal.set l => (a, AttrVal.set l)
    | false, v => (a, v))

/-- The fresh-key branch of EdgeSet.update_edges on a record-valued
dict: `set(attr_val)` turns a string into its character set and copies
a set. -/
def newEdgeRecL (r : RecT) : RecT :=
  EDGE_ATTRIBUTES.map (fun a =>
    match pyInB SET_MARK a, recGetD r a with
    | true, AttrVal.s w =>
      (a, if w = [] then AttrVal.set [] else AttrVal.set (pyCharSet w))
    | true, AttrVal.set l => (a, AttrVal.set l)
    | false, v => (a, v))

/-- NodeSet.update_nodes called with a loaded record and no explicit
key, as merge_resource_sets does (utils.py 186). -/
def updateNodesL (s : Store) (r : RecT) : Option Store :=
  match (dlookup r curieID).getD (AttrVal.s noIdS) with
  | AttrVal.set _ => none
  | AttrVal.s key =>
    match dlookup s key with
    | some old => (updTouchL r old).map (fun rec => dassign s key rec)
    | none => some (dassign s key (newNodeRecL r))

/-- EdgeSet.update_edges called with a loaded record and no explicit
key (utils.py 192). -/
def updateEdgesL (s : Store) (r : RecT) : Option Store :=
  match (dlookup r startIDA).getD (AttrVal.s noStartS),
        (dlookup r endIDA).getD (AttrVal.s noEndS),
        (dlookup r typeA).getD (AttrVal.s noTypeS) with
  | AttrVal.s id1, AttrVal.s id2, AttrVal.s id3 =>
    let key := id1 ++ '_' :: id2 ++ ':' :: id3
    match dlookup s key with
    | some old => (updTouchL r old).map (fun rec => dassign s key rec)
    | none => some (dassign s key (newEdgeRecL r))
  | _, _, _ => none

/-- The per-file node loop of merge_resource_sets (utils.py 184-186):
a loaded record is upserted only when its loaded key is not already a
key of the accumulator; otherwise it is skipped outright. -/
def mergeOneNodeFile (full : Store) : Store → Option Store
  | [] => some full
  | (k, rec) :: rest =>
    if (dlookup full k).isSome then mergeOneNodeFile full rest
    else
      match updateNodesL full rec with
      | none => none
      | some full' => mergeOneNodeFile full' rest

/-- The per-file edge loop of merge_resource_sets (utils.py 190-192). -/
def mergeOneEdgeFile (full : Store) : Store → Option Store
  | [] => some full
  | (k, rec) :: rest =>
    if (dlookup full k).isSome then mergeOneEdgeFile full rest
    else
      match updateEdgesL full rec with
      | none => none
      | some full' => mergeOneEdgeFile full' rest

def mergeNodeFiles (full : Store) : List Store → Option Store
  | [] => some full
  | ns :: rest =>
    match mergeOneNodeFile full ns with
    | none => none
    | some full' => mergeNodeFiles full' rest

def mergeEdgeFiles (full : Store) : List Store → Option Store
  | [] => some full
  | es :: rest =>
    match mergeOneEdgeFile full es with
    | none => none
    | some full' => mergeEdgeFiles full' rest

/-- merge_resource_sets (utils.py 171-195) over a directory listing
given as (file name, file content) pairs in listing order: node files
are those whose name starts with `nodes`, edge files start with
`edges`; each is loaded with the §4.2 loader into a fresh set and its
records folded into the two accumulators through the guarded loops. -/
def mergeResourceSets (files : List (Str × Str)) : Option (Store × Store) :=
  let nodeFiles := files.filter (fun f => startsW "nodes".data f.1)
  let edgeFiles := files.filter (fun f => startsW "edges".data f.1)
  match mergeNodeFiles [] (nodeFiles.map (fun f => parseNodeInto [] f.2)),
        mergeEdgeFiles [] (edgeFiles.map (fun f => parseEdgeInto [] f.2)) with
  | some ns, some es => some (ns, es)
  | _, _ => none

/-! Source projection (get_graph_for_source, utils.py 79-118). -/

/-- The source-tag set of a record.  The source reads
`node["source:string[]"]` directly; on the stores this program builds
that slot always holds a set, and the theorems below assume as much
(a string there would give Python substring/length semantics instead). -/
def srcListOf (rec : RecT) : List Str :=
  match dlookup rec srcAttr with
  | some (AttrVal.set l) => l
  | _ => []

/-- Membership test `source_name in sources` with `source_name`
possibly `None` (Python's `None` is never a member of a string set). -/
def tagMemB (o : Option Str) (l : List Str) : Bool :=
  match o with
  | none => false
  | some t => decide (t ∈ l)

/-- The include decision of the non-mixed branch (utils.py 91-96):
`if strict and len > 1: add = False elif source_name not in sources:
add = False`. -/
def projKeep (strict : Bool) (srcName : Option Str) (rec : RecT) : Bool :=
  if strict && decide (1 < (srcListOf rec).length) then false
  else tagMemB srcName (srcListOf rec)

/-- get_graph_for_source: a pair of fresh filtered stores; the mixed
branch keeps exactly the records with more than one source tag. -/
def get_graph_for_source (ns es : Store) (srcName : Option Str)
    (strict mixed : Bool) : Store × Store :=
  if mixed then
    (ns.filter (fun kv => decide (1 < (srcListOf kv.2).length)),
     es.filter (fun kv => decide (1 < (srcListOf kv.2).length)))
  else
    (ns.filter (fun kv => projKeep strict srcName kv.2),
     es.filter (fun kv => projKeep strict srcName kv.2))

/-! Similarity scorer (jacquard_sim.py 58-112).  Entity and relation
names are opaque here, so plain `String` is used; Python numbers are
exact rationals. -/

/-- Weight lookup `edge_weights.get(edge_type, 1)`: a missing relation
type weighs 1. -/
def wGetD (w : List (String × ℚ)) (t : String) : ℚ :=
  (dlookup w t).getD 1

/-- An adjacency profile `project_to_edges_map[pid]`: the neighbor key
set together with the relation-type set stored under each neighbor. -/
structure Profile where
  nbrs : Finset String
  tmap : String → Finset String

/-- Lookup `project_to_edges_map[pid].get(entity, set())`. -/
def typesAt (m : String → Profile) (p e : String) : Finset String :=
  if e ∈ (m p).nbrs then (m p).tmap e else ∅

/-- The `intersection_score` accumulator of jacquard_sim: over the
union of the two neighbor key sets, the summed weights of the shared
relation types. -/
def interScoreOf (w : List (String × ℚ)) (m : String → Profile)
    (p1 p2 : String) : ℚ :=
  ((m p1).nbrs ∪ (m p2).nbrs).sum (fun e =>
    ((typesAt m p1 e) ∩ (typesAt m p2 e)).sum (fun t => wGetD w t))

/-- The `union_score` accumulator of jacquard_sim: the summed weights
of all relation types seen by either side. -/
def unionScoreOf (w : List (String × ℚ)) (m : String → Profile)
    (p1 p2 : String) : ℚ :=
  ((m p1).nbrs ∪ (m p2).nbrs).sum (fun e =>
    ((typesAt m p1 e) ∪ (typesAt m p2 e)).sum (fun t => wGetD w t))

/-- jacquard_sim (jacquard_sim.py 72-112), reduced to the score it
computes: `intersection_score / union_score if union_score > 0 else
0`. -/
def jacquard_sim (w : List (String × ℚ)) (m : String → Profile)
    (p1 p2 : String) : ℚ :=
  if 0 < unionScoreOf w m p1 p2 then
    interScoreOf w m p1 p2 / unionScoreOf w m p1 p2
  else 0

/-- get_edge_weights (jacquard_sim.py 58-69): weight 1 for every
relation type seen in the edge file, then seven fixed overrides. -/
def get_edge_weights (edgeTypes : List String) : List (String × ℚ) :=
  [("mentions", (1 : ℚ)/2), ("has_fundingAgency", 2), ("has_institutions", 2),
   ("has_diseaseFocus", 2), ("has_manifestation", 2), ("has_initiative", 3),
   ("usesTool", 3)].foldl (fun t kv => dassign t kv.1 kv.2)
    (edgeTypes.dedup.map (fun t => (t, (1 : ℚ))))

/-! Well-formedness predicates used by the theorems.  They describe the
shape every record reachable through this program's own upserts and
loader has: schema-aligned attribute dicts with sets exactly in the
`string[]` slots. -/

/-- A value free of the characters the flat-file format cannot carry
inside a field: semicolons, quotes, tabs, newlines. -/
def okStr (s : Str) : Bool :=
  s.all (fun c => c ≠ ';' && c ≠ '"' && c ≠ '\'' && c ≠ '\t' && c ≠ '\n')

/-- A serializable slot value: a `:string[]` attribute holds a
non-empty, duplicate-free set of at most 20 clean members; any other
attribute holds a clean plain string. -/
def okVal (a : Str) (v : AttrVal) : Bool :=
  if pyInB LOAD_SET_MARK a then
    match v with
    | AttrVal.set l =>
      !l.isEmpty && decide (l.length ≤ 20) && decide l.Nodup && l.all okStr
    | AttrVal.s _ => false
  else
    match v with
    | AttrVal.s w => okStr w
    | AttrVal.set _ => false

/-- A record aligned with an attribute schema, slot by slot. -/
def recWF (attrs : List Str) (rec : RecT) : Bool :=
  rec.map Prod.fst == attrs && rec.all (fun e => okVal e.1 e.2)

/-- The keys of a store, in store order. -/
def keysOf (s : Store) : List Str := s.map Prod.fst

/-- A node record filed under its own `curie:ID` value, as the loader
keys rows and as update_nodes keys records whose identity field is
present. -/
def nodeKeyed (k : Str) (rec : RecT) : Bool :=
  match recGetD rec curieID with
  | AttrVal.s v => k == v
  | AttrVal.set _ => false

/-- An edge record filed under the loader's `head_tail_relation` key. -/
def edgeKeyed (k : Str) (rec : RecT) : Bool :=
  match recGetD rec startIDA, recGetD rec endIDA, recGetD rec typeA with
  | AttrVal.s v0, AttrVal.s v1, AttrVal.s v2 =>
    k == v0 ++ '_' :: v1 ++ '_' :: v2
  | _, _, _ => false

/-- A serializable node store: distinct keys, every record
schema-aligned and filed under its identity value. -/
def nodeStoreWF (s : Store) : Bool :=
  decide (keysOf s).Nodup &&
    s.all (fun kv => recWF NODE_ATTRIBUTES kv.2 && nodeKeyed kv.1 kv.2)

/-- A serializable edge store. -/
def edgeStoreWF (s : Store) : Bool :=
  decide (keysOf s).Nodup &&
    s.all (fun kv => recWF EDGE_ATTRIBUTES kv.2 && edgeKeyed kv.1 kv.2)

/-- Membership in a stored multi-valued slot; a plain string holds no
members. -/
def setMem (v : AttrVal) (x : Str) : Bool :=
  match v with
  | AttrVal.set l => decide (x ∈ l)
  | AttrVal.s _ => false

/-- Every `string[]` slot of a record holds a set (true of every store
this program builds); projection and re-insert behaviour is only
specified on such records. -/
def setSlotsWF (rec : RecT) : Bool :=
  rec.all (fun e =>
    !(pyInB SET_MARK e.1) ||
      (match e.2 with
       | AttrVal.set _ => true
       | AttrVal.s _ => false))

/-- Records with duplicate-free source sets and a store with distinct
keys: what the projection-partition argument needs. -/
def srcWF (s : Store) : Bool :=
  decide (keysOf s).Nodup &&
    s.all (fun kv =>
      match dlookup kv.2 srcAttr with
      | some (AttrVal.set l) => decide l.Nodup
      | _ => false)

/-- All source tags appearing anywhere in a store. -/
def tagsOf (s : Store) : List Str :=
  (s.map (fun kv => srcListOf kv.2)).flatten

/-! Concrete inputs used by evaluation theorems and witnesses. -/

/-- The failing record for the edge-idempotence bug: a normal edge
observation whose multi-valued `source:string[]` value is the
two-character string `ab`. -/
def rC1 : Dict :=
  [(startIDA, "a".data), (endIDA, "b".data), (typeA, "t".data),
   (srcAttr, "ab".data)]


/-- A store holding one node whose scalar `name` slot is empty: built
by upserting a record that carries only the identity field. -/
def sC4 : Store := updateNodes [] [(curieID, "A".data)] none

/-- A later record for the same key that does carry a `name` value. -/
def rC4 : Dict := [(curieID, "A".data), (nameAttr, "x".data)]

/-- A store with one node carrying identity `A` and source tag `s1`,
used to instantiate the re-insert theorem. -/
def rC4w : Dict := [(curieID, "A".data), (srcAttr, "s1".data)]

def sC4w : Store := updateNodes [] rC4w none


/-- Two per-source node observations of the same entity `A`, one tagged
`s1`, one tagged `s2`. -/
def rC3a : Dict := [(curieID, "A".data), (srcAttr, "s1".data)]

def rC3b : Dict := [(curieID, "A".data), (srcAttr, "s2".data)]

/-- A directory listing of two serialized per-source node files, each
holding one record for entity `A` with its own source tag. -/
def filesC3 : List (Str × Str) :=
  [("nodes_s1.tsv".data, writeNodeSet (updateNodes [] rC3a none)),
   ("nodes_s2.tsv".data, writeNodeSet (updateNodes [] rC3b none))]


/-- A concrete weight table: get_edge_weights over the relation types
`r` and `mentions`. -/
def wC8 : List (String × ℚ) := get_edge_weights ["r", "mentions"]

/-- Two projects each seeing the single neighbor `n` through relation
`r`, every other entity isolated. -/
def mC8 : String → Profile := fun p =>
  if p = "syn1" || p = "syn2" then
    ⟨{"n"}, fun e => if e = "n" then {"r"} else ∅⟩
  else ⟨∅, fun _ => ∅⟩


/-- A store with one single-source record (`A`, tagged `s1`) and one
mixed-provenance record (`B`, tagged `s1` and `s2`). -/
def nsC7 : Store :=
  [("A".data, [(srcAttr, AttrVal.set ["s1".data])]),
   ("B".data, [(srcAttr, AttrVal.set ["s1".data, "s2".data])])]


/-- A node store holding a single record with empty multi-valued sets:
within the round-trip claim's own preconditions (at most 20 members, no
semicolons or quotes). -/
def sC2a : Store := updateNodes [] [(curieID, "A".data)] none

/-- An ordinary one-edge store, keyed `a_b:t` by update_edges. -/
def sC2b : Store :=
  updateEdges []
    [(startIDA, "a".data), (endIDA, "b".data), (typeA, "t".data),
     (srcAttr, "s".data)] none

/-- A node store whose record lacks `curie:ID`, filed under the
placeholder key `no_id` while its identity attribute is empty. -/
def sC2c : Store := updateNodes [] [(nameAttr, "x".data)] none

/-- A well-formed node store for the round-trip witness: identity `A`,
every multi-valued slot non-empty. -/
def nsC2w : Store :=
  updateNodes []
    [(curieID, "A".data), (srcAttr, "s1".data),
     ("raw_texts:string[]".data, "r1".data),
     ("columns:string[]".data, "c1".data),
     ("file_id:string[]".data, "f1".data)] none

/-- A well-formed edge store for the round-trip witness: a loaded store
(keyed `a_b_t` in the loader's format, every multi-valued slot
non-empty). -/
def esC2w : Store := parseEdgeInto [] (writeEdgeSet sC2b)

/-! Helper lemmas about the dict model. -/

theorem dlookup_dassign_self {κ α : Type} [DecidableEq κ]
    (s : List (κ × α)) (k : κ) (v : α) :
    dlookup (dassign s k v) k = some v := by
  induction s with
  | nil => simp [dassign, dlookup]
  | cons e rest ih =>
    by_cases h : e.1 = k
    · simp [dassign, h, dlookup]
    · simp [dassign, h, dlookup, ih]

theorem dlookup_dassign_ne {κ α : Type} [DecidableEq κ]
    (s : List (κ × α)) (k k' : κ) (v : α) (h : k' ≠ k) :
    dlookup (dassign s k v) k' = dlookup s k' := by
  have h' : ¬k = k' := fun hh => h hh.symm
  induction s with
  | nil => simp [dassign, dlookup, h']
  | cons e rest ih =>
    by_cases he : e.1 = k
    · subst he
      simp [dassign, dlookup, h']
    · simp [dassign, he, dlookup, ih]

theorem dassign_fresh {κ α : Type} [DecidableEq κ]
    (s : List (κ × α)) (k : κ) (v : α) (h : dlookup s k = none) :
    dassign s k v = s ++ [(k, v)] := by
  induction s with
  | nil => simp [dassign]
  | cons e rest ih =>
    by_cases he : e.1 = k
    · simp [dlookup, he] at h
    · simp [dlookup, he] at h
      simp [dassign, he, ih h]

theorem dlookup_append_sing_ne {κ α : Type} [DecidableEq κ]
    (s : List (κ × α)) (k k' : κ) (v : α) (h : dlookup s k' = none)
    (hne : k' ≠ k) : dlookup (s ++ [(k, v)]) k' = none := by
  have h' : ¬k = k' := fun hh => hne hh.symm
  induction s with
  | nil => simp [dlookup, h']
  | cons e rest ih =>
    by_cases he : e.1 = k'
    · simp [dlookup, he] at h
    · simp [dlookup, he] at h ⊢
      exact ih h

/-- C10: the two edge identity-key computations always disagree - for
every start, end and relation-type string, the key update_edges builds
(`start_end:type`) differs from the key load_edge_set builds for the
same record (`head_tail_relation`), so an upsert can never land on a
loaded record's key. -/
theorem edge_update_load_keys_always_differ (start end_ rel : Str) :
    updEdgeKey start end_ rel ≠ loadEdgeKey start end_ rel := by
  intro h
  unfold updEdgeKey loadEdgeKey at h
  have h2 := List.append_cancel_left h
  have h3 := (List.cons.injEq _ _ _ _).mp h2
  exact absurd h3.1 (by decide)

/-- C6: loading from a path that does not exist returns without
touching the store, so a fresh store stays empty (zero records), for
both the node and the edge loader. -/
theorem load_missing_path_leaves_store_empty (fs : FS) (p q : Str)
    (h1 : fs p = none) (h2 : fs q = none) :
    loadNodeSet fs p [] = [] ∧ (loadNodeSet fs p []).length = 0 ∧
      loadEdgeSet fs q [] = [] ∧ (loadEdgeSet fs q []).length = 0 := by
  unfold loadNodeSet loadEdgeSet
  rw [h1, h2]
  exact ⟨rfl, rfl, rfl, rfl⟩

theorem load_missing_path_leaves_store_empty_witness :
    loadNodeSet (fun _ => none) "nodes.tsv".data [] = [] ∧
      (loadNodeSet (fun _ => none) "nodes.tsv".data []).length = 0 ∧
      loadEdgeSet (fun _ => none) "edges.tsv".data [] = [] ∧
      (loadEdgeSet (fun _ => none) "edges.tsv".data []).length = 0 :=
  load_missing_path_leaves_store_empty (fun _ => none)
    "nodes.tsv".data "edges.tsv".data rfl rfl

theorem edgeKeyOf_none (r : Dict) :
    edgeKeyOf r none =
      pyGetD r startIDA noStartS ++ '_' :: pyGetD r endIDA noEndS ++
        ':' :: pyGetD r typeA noTypeS := by
  simp [edgeKeyOf, pyOr]

/-- C5: an edge record with a missing `:END_ID` attribute is upserted
without raising, under a key that contains the literal `no_end`
(analogously `no_start` / `no_type` for the other identity fields), and
the record is filed in the store under that placeholder key rather than
any distinct error state. -/
theorem edge_missing_ids_placeholder_keys (r : Dict) (s : Store) :
    (dlookup r endIDA = none → hasSub noEndS (edgeKeyOf r none)) ∧
      (dlookup r startIDA = none → hasSub noStartS (edgeKeyOf r none)) ∧
      (dlookup r typeA = none → hasSub noTypeS (edgeKeyOf r none)) ∧
      (dlookup (updateEdges s r none) (edgeKeyOf r none)).isSome = true := by
  refine ⟨fun h => ?_, fun h => ?_, fun h => ?_, ?_⟩
  · refine ⟨pyGetD r startIDA noStartS ++ ['_'],
      ':' :: pyGetD r typeA noTypeS, ?_⟩
    rw [edgeKeyOf_none]
    simp [pyGetD, h]
  · refine ⟨[], '_' :: pyGetD r endIDA noEndS ++
      ':' :: pyGetD r typeA noTypeS, ?_⟩
    rw [edgeKeyOf_none]
    simp [pyGetD, h]
  · refine ⟨pyGetD r startIDA noStartS ++
      '_' :: pyGetD r endIDA noEndS ++ [':'], [], ?_⟩
    rw [edgeKeyOf_none]
    simp [pyGetD, h]
  · unfold updateEdges
    cases hl : dlookup s (edgeKeyOf r none) with
    | some old => simp [hl, dlookup_dassign_self]
    | none => simp [hl, dlookup_dassign_self]

theorem edge_missing_ids_placeholder_keys_witness :
    (dlookup ([(startIDA, "a".data)] : Dict) endIDA = none →
      hasSub noEndS (edgeKeyOf [(startIDA, "a".data)] none)) ∧
      (dlookup ([(startIDA, "a".data)] : Dict) startIDA = none →
        hasSub noStartS (edgeKeyOf [(startIDA, "a".data)] none)) ∧
      (dlookup ([(startIDA, "a".data)] : Dict) typeA = none →
        hasSub noTypeS (edgeKeyOf [(startIDA, "a".data)] none)) ∧
      (dlookup (updateEdges [] [(startIDA, "a".data)] none)
        (edgeKeyOf [(startIDA, "a".data)] none)).isSome = true :=
  edge_missing_ids_placeholder_keys [(startIDA, "a".data)] []


/-- C1: merge idempotence fails for the edge store.  On first insert
edges.py line 87 stores `set(attr_val)` - the characters of the string,
`{a, b}` - while the second upsert of the very same record adds the
whole string via `set.add`, yielding `{a, b, ab}`.  Upserting the
record twice therefore does not equal upserting it once: evaluated at
the failing input, the member `ab` is present after two upserts and
absent after one.  (nodes.py line 84 wraps the value, `set([attr_val])`,
so the node store is not affected; the spec's idempotence property is
the evident intent and `set(attr_val)` the slip.) -/
theorem edge_upsert_twice_differs_from_once :
    ((dlookup (updateEdges (updateEdges [] rC1 none) rC1 none) "a_b:t".data).map
        (fun rec => setMem (recGetD rec srcAttr) "ab".data) = some true) ∧
      ((dlookup (updateEdges [] rC1 none) "a_b:t".data).map
        (fun rec => setMem (recGetD rec srcAttr) "ab".data) = some false) := by
  decide

/-- C4 counterexample: the claim says a later writer's scalar fields
populate previously-empty scalar fields, but the existing-key branch of
the upserts (nodes.py 71-75 / edges.py 74-78) touches only `string[]`
attributes.  Re-inserting under key `A` with `name = "x"` leaves the
empty `name` slot empty instead of populating it to `x`. -/
theorem reinsert_empty_scalar_not_populated :
    (dlookup (updateNodes sC4 rC4 none) "A".data).map
        (fun rec => recGetD rec nameAttr) = some (AttrVal.s []) ∧
      AttrVal.s [] ≠ AttrVal.s "x".data := by
  decide

/-- C4 as amended: on re-insertion under an existing key, every
non-`string[]` slot of the stored record is left exactly as it was
(never replaced when non-empty, and never populated when empty either),
while every `string[]` slot accumulates by set union with the incoming
value exactly when that value is non-empty after stripping quotes. -/
theorem reinsert_scalars_frozen_sets_union
    (s : Store) (r : Dict) (key : Str) (rec : RecT)
    (hl : dlookup s key = some rec) (hwf : setSlotsWF rec = true) :
    (nodeKeyOf r none = key →
      dlookup (updateNodes s r none) key = some (rec.map (updTouch r))) ∧
      (edgeKeyOf r none = key →
        dlookup (updateEdges s r none) key = some (rec.map (updTouch r))) ∧
      (∀ a v, (a, v) ∈ rec → pyInB SET_MARK a = false →
        updTouch r (a, v) = (a, v)) ∧
      (∀ a v x, (a, v) ∈ rec → pyInB SET_MARK a = true →
        setMem (updTouch r (a, v)).2 x =
          (setMem v x ||
            (decide (x = pyGetD r a []) &&
              decide (stripQ (pyGetD r a []) ≠ [])))) := by
  refine ⟨fun hk => ?_, fun hk => ?_, fun a v _ hB => ?_, fun a v x hmem hB => ?_⟩
  · unfold updateNodes
    rw [hk]
    simp [hl, dlookup_dassign_self]
  · unfold updateEdges
    rw [hk]
    simp [hl, dlookup_dassign_self]
  · simp [updTouch, hB]
  · have hv := List.all_eq_true.mp hwf (a, v) hmem
    simp only [setSlotsWF, hB, Bool.not_true, Bool.false_or] at hv
    cases v with
    | s w => simp at hv
    | set l =>
      by_cases hc : stripQ (pyGetD r a []) = []
      · simp [updTouch, hc, setMem]
      · simp only [updTouch, hB, hc, ne_eq, not_false_iff, and_true, if_true,
          setAdd, setMem, decide_eq_true_eq]
        by_cases hw : pyGetD r a [] ∈ l
        · by_cases hx : x = pyGetD r a []
          · subst hx
            simp [hw, hc]
          · simp [hw, hx]
        · by_cases hx : x = pyGetD r a []
          · subst hx
            simp [hw, hc, List.mem_append]
          · simp [hw, hx, List.mem_append]

theorem reinsert_scalars_frozen_sets_union_witness :
    (nodeKeyOf rC4 none = "A".data →
      dlookup (updateNodes sC4w rC4 none) "A".data =
        some ((newNodeRec rC4w).map (updTouch rC4))) ∧
      (edgeKeyOf rC4 none = "A".data →
        dlookup (updateEdges sC4w rC4 none) "A".data =
          some ((newNodeRec rC4w).map (updTouch rC4))) ∧
      (∀ a v, (a, v) ∈ newNodeRec rC4w → pyInB SET_MARK a = false →
        updTouch rC4 (a, v) = (a, v)) ∧
      (∀ a v x, (a, v) ∈ newNodeRec rC4w → pyInB SET_MARK a = true →
        setMem (updTouch rC4 (a, v)).2 x =
          (setMem v x ||
            (decide (x = pyGetD rC4 a []) &&
              decide (stripQ (pyGetD rC4 a []) ≠ [])))) :=
  reinsert_scalars_frozen_sets_union sC4w rC4 "A".data (newNodeRec rC4w)
    (by decide) (by decide)

/-- C3: merge_resource_sets does not merge a record whose identity key
appears in two per-source files - the guard `if node_id not in
full_node_set.nodes` (utils.py 185) skips the second file's record
outright, so its values are dropped instead of folding in by upsert.
Evaluated on two files that both hold entity `A`, the merged store
carries source tag `s1` but not `s2`; the claimed upsert semantics
would give the union `{s1, s2}`.  (In CPython the call would not even
get this far: update_nodes is handed a loaded `Node` object, which has
no `.get` method, so any non-empty file raises `AttributeError`; the
model evaluates the record as the attribute dict it wraps.) -/
theorem merge_resource_sets_drops_second_file :
    (mergeResourceSets filesC3).map
        (fun p => ((dlookup p.1 "A".data).map
          (fun rec => (setMem (recGetD rec srcAttr) "s1".data,
            setMem (recGetD rec srcAttr) "s2".data)), p.2)) =
      some (some (true, false), []) := by
  rfl

/-! Helper lemmas for the similarity scorer. -/

theorem dlookup_mem {κ α : Type} [DecidableEq κ]
    {l : List (κ × α)} {k : κ} {v : α} (h : dlookup l k = some v) :
    (k, v) ∈ l := by
  induction l with
  | nil => simp [dlookup] at h
  | cons e rest ih =>
    obtain ⟨a, b⟩ := e
    by_cases he : a = k
    · subst he
      simp [dlookup] at h
      subst h
      exact List.mem_cons_self _ _
    · simp [dlookup, he] at h
      exact List.mem_cons_of_mem _ (ih h)

theorem wGetD_pos {w : List (String × ℚ)} (hw : ∀ q ∈ w, 0 < q.2)
    (t : String) : 0 < wGetD w t := by
  unfold wGetD
  cases h : dlookup w t with
  | none => norm_num
  | some v => exact hw (t, v) (dlookup_mem h)

/-- C9: the similarity score is symmetric - for every weight table,
adjacency-profile map and pair of top-level entities,
`jacquard_sim(a, b) = jacquard_sim(b, a)`. -/
theorem jacquard_score_symm (w : List (String × ℚ))
    (m : String → Profile) (p1 p2 : String) :
    jacquard_sim w m p1 p2 = jacquard_sim w m p2 p1 := by
  have h1 : ∀ e, typesAt m p1 e ∩ typesAt m p2 e =
      typesAt m p2 e ∩ typesAt m p1 e := fun e => Finset.inter_comm _ _
  have h2 : ∀ e, typesAt m p1 e ∪ typesAt m p2 e =
      typesAt m p2 e ∪ typesAt m p1 e := fun e => Finset.union_comm _ _
  have hi : interScoreOf w m p1 p2 = interScoreOf w m p2 p1 := by
    unfold interScoreOf
    rw [Finset.union_comm]
    exact Finset.sum_congr rfl (fun e _ => by rw [h1])
  have hu : unionScoreOf w m p1 p2 = unionScoreOf w m p2 p1 := by
    unfold unionScoreOf
    rw [Finset.union_comm]
    exact Finset.sum_congr rfl (fun e _ => by rw [h2])
  unfold jacquard_sim
  rw [hi, hu]

/-- C8: for every positive weight table the score lies in `[0, 1]`, and
it equals 1 only when the relation-type sets of the two sides agree on
every shared neighbor and no neighbor unique to one side carries a
relation type of positive weight. -/
theorem jacquard_score_bounds (w : List (String × ℚ)) (m : String → Profile)
    (p1 p2 : String) (hw : ∀ q ∈ w, 0 < q.2) :
    0 ≤ jacquard_sim w m p1 p2 ∧ jacquard_sim w m p1 p2 ≤ 1 ∧
      (jacquard_sim w m p1 p2 = 1 →
        (∀ e ∈ (m p1).nbrs ∩ (m p2).nbrs, typesAt m p1 e = typesAt m p2 e) ∧
          (∀ e, (e ∈ (m p1).nbrs ∧ e ∉ (m p2).nbrs) ∨
              (e ∈ (m p2).nbrs ∧ e ∉ (m p1).nbrs) →
            ∀ t ∈ typesAt m p1 e ∪ typesAt m p2 e, ¬ 0 < wGetD w t)) := by
  have hpos : ∀ t, 0 < wGetD w t := wGetD_pos hw
  have hIU : interScoreOf w m p1 p2 ≤ unionScoreOf w m p1 p2 := by
    unfold interScoreOf unionScoreOf
    refine Finset.sum_le_sum (fun e _ => ?_)
    refine Finset.sum_le_sum_of_subset_of_nonneg ?_
      (fun t _ _ => le_of_lt (hpos t))
    exact Finset.inter_subset_union
  have hI0 : 0 ≤ interScoreOf w m p1 p2 := by
    unfold interScoreOf
    exact Finset.sum_nonneg
      (fun e _ => Finset.sum_nonneg (fun t _ => le_of_lt (hpos t)))
  refine ⟨?_, ?_, ?_⟩
  · unfold jacquard_sim
    by_cases hU : 0 < unionScoreOf w m p1 p2
    · rw [if_pos hU]
      exact div_nonneg hI0 (le_of_lt hU)
    · rw [if_neg hU]
  · unfold jacquard_sim
    by_cases hU : 0 < unionScoreOf w m p1 p2
    · rw [if_pos hU]
      exact (div_le_one hU).mpr hIU
    · rw [if_neg hU]
      norm_num
  · intro h1
    unfold jacquard_sim at h1
    by_cases hU : 0 < unionScoreOf w m p1 p2
    · rw [if_pos hU] at h1
      have hE : interScoreOf w m p1 p2 = unionScoreOf w m p1 p2 :=
        (div_eq_one_iff_eq (ne_of_gt hU)).mp h1
      unfold interScoreOf unionScoreOf at hE
      have hpe := (Finset.sum_eq_sum_iff_of_le
        (fun e _ => Finset.sum_le_sum_of_subset_of_nonneg
          Finset.inter_subset_union
          (fun t _ _ => le_of_lt (hpos t)))).mp hE
      have hsets : ∀ e ∈ (m p1).nbrs ∪ (m p2).nbrs,
          typesAt m p1 e ∩ typesAt m p2 e =
            typesAt m p1 e ∪ typesAt m p2 e := by
        intro e he
        by_contra hne
        have hss : typesAt m p1 e ∩ typesAt m p2 e ⊂
            typesAt m p1 e ∪ typesAt m p2 e :=
          Finset.ssubset_iff_subset_ne.mpr ⟨Finset.inter_subset_union, hne⟩
        obtain ⟨i, hiU, hiI⟩ := Finset.exists_of_ssubset hss
        have hlt := Finset.sum_lt_sum_of_subset Finset.inter_subset_union
          hiU hiI (hpos i) (fun j _ _ => le_of_lt (hpos j))
        exact absurd (hpe e he) (ne_of_lt hlt)
      refine ⟨fun e he => ?_, fun e he t ht => ?_⟩
      · have heu : e ∈ (m p1).nbrs ∪ (m p2).nbrs :=
          Finset.mem_union_left _ (Finset.mem_of_mem_inter_left he)
        have h := hsets e heu
        apply Finset.Subset.antisymm
        · intro t ht
          have htu : t ∈ typesAt m p1 e ∪ typesAt m p2 e :=
            Finset.mem_union_left _ ht
          rw [← h] at htu
          exact Finset.mem_of_mem_inter_right htu
        · intro t ht
          have htu : t ∈ typesAt m p1 e ∪ typesAt m p2 e :=
            Finset.mem_union_right _ ht
          rw [← h] at htu
          exact Finset.mem_of_mem_inter_left htu
      · intro hpt
        have heu : e ∈ (m p1).nbrs ∪ (m p2).nbrs := by
          rcases he with ⟨h1m, _⟩ | ⟨h2m, _⟩
          · exact Finset.mem_union_left _ h1m
          · exact Finset.mem_union_right _ h2m
        have h := hsets e heu
        rw [← h] at ht
        rcases he with ⟨_, h2m⟩ | ⟨_, h1m⟩
        · have : typesAt m p2 e = ∅ := by simp [typesAt, h2m]
          rw [this] at ht
          exact absurd (Finset.mem_of_mem_inter_right ht) (Finset.not_mem_empty t)
        · have : typesAt m p1 e = ∅ := by simp [typesAt, h1m]
          rw [this] at ht
          exact absurd (Finset.mem_of_mem_inter_left ht) (Finset.not_mem_empty t)
    · rw [if_neg hU] at h1
      norm_num at h1

theorem jacquard_score_bounds_witness :
    0 ≤ jacquard_sim wC8 mC8 "syn1" "syn2" ∧
      jacquard_sim wC8 mC8 "syn1" "syn2" ≤ 1 ∧
      (jacquard_sim wC8 mC8 "syn1" "syn2" = 1 →
        (∀ e ∈ (mC8 "syn1").nbrs ∩ (mC8 "syn2").nbrs,
          typesAt mC8 "syn1" e = typesAt mC8 "syn2" e) ∧
          (∀ e, (e ∈ (mC8 "syn1").nbrs ∧ e ∉ (mC8 "syn2").nbrs) ∨
              (e ∈ (mC8 "syn2").nbrs ∧ e ∉ (mC8 "syn1").nbrs) →
            ∀ t ∈ typesAt mC8 "syn1" e ∪ typesAt mC8 "syn2" e,
              ¬ 0 < wGetD wC8 t)) :=
  jacquard_score_bounds wC8 mC8 "syn1" "syn2" (by
    have h : wC8 =
        [("r", (1 : ℚ)), ("mentions", (1 : ℚ)/2), ("has_fundingAgency", 2),
         ("has_institutions", 2), ("has_diseaseFocus", 2),
         ("has_manifestation", 2), ("has_initiative", 3), ("usesTool", 3)] := by
      rfl
    rw [h]
    intro q hq
    simp only [List.mem_cons, List.not_mem_nil, or_false] at hq
    rcases hq with h1|h1|h1|h1|h1|h1|h1|h1 <;> subst h1 <;> norm_num)

/-! Helper lemmas for the source projection. -/

theorem nodup_keys_unique {s : Store} (hnd : (keysOf s).Nodup)
    {k : Str} {a b : RecT} (ha : (k, a) ∈ s) (hb : (k, b) ∈ s) : a = b := by
  induction s with
  | nil => simp at ha
  | cons e rest ih =>
    simp only [keysOf, List.map_cons, List.nodup_cons] at hnd
    rcases List.mem_cons.mp ha with ha1 | ha1 <;>
      rcases List.mem_cons.mp hb with hb1 | hb1
    · rw [← ha1] at hb1
      exact (Prod.mk.injEq _ _ _ _).mp hb1.symm |>.2
    · exfalso
      apply hnd.1
      rw [← ha1]
      exact List.mem_map.mpr ⟨(k, b), hb1, rfl⟩
    · exfalso
      apply hnd.1
      rw [← hb1]
      exact List.mem_map.mpr ⟨(k, a), ha1, rfl⟩
    · exact ih hnd.2 ha1 hb1

theorem mem_len_le_one {t : Str} {l : List Str} (hm : t ∈ l)
    (hl : l.length ≤ 1) : l = [t] := by
  cases l with
  | nil => simp at hm
  | cons x xs =>
    cases xs with
    | nil => simp at hm; rw [hm]
    | cons y ys => simp at hl

theorem projKeep_strict_iff (t : Str) (rec : RecT) :
    projKeep true (some t) rec = true ↔ srcListOf rec = [t] := by
  unfold projKeep tagMemB
  by_cases hl : 1 < (srcListOf rec).length
  · rw [if_pos (by simp [hl])]
    constructor
    · intro h
      simp at h
    · intro h
      rw [h] at hl
      simp at hl
  · rw [if_neg (by simp [hl])]
    simp only [decide_eq_true_eq]
    constructor
    · intro h
      exact mem_len_le_one h (by omega)
    · intro h
      rw [h]
      exact List.mem_singleton_self t

theorem proj_node_eq (ns es : Store) (t : Str) :
    (get_graph_for_source ns es (some t) true false).1 =
      ns.filter (fun kv => projKeep true (some t) kv.2) := by
  simp [get_graph_for_source]

theorem proj_edge_eq (ns es : Store) (t : Str) :
    (get_graph_for_source ns es (some t) true false).2 =
      es.filter (fun kv => projKeep true (some t) kv.2) := by
  simp [get_graph_for_source]

theorem strictFilter_disjoint {s : Store} (hnd : (keysOf s).Nodup)
    {t1 t2 k : Str} (hne : t1 ≠ t2) :
    ¬(k ∈ keysOf (s.filter (fun kv => projKeep true (some t1) kv.2)) ∧
      k ∈ keysOf (s.filter (fun kv => projKeep true (some t2) kv.2))) := by
  rintro ⟨h1, h2⟩
  obtain ⟨kv1, hm1, hf1⟩ := List.mem_map.mp h1
  obtain ⟨kv2, hm2, hf2⟩ := List.mem_map.mp h2
  obtain ⟨hs1, hp1⟩ := List.mem_filter.mp hm1
  obtain ⟨hs2, hp2⟩ := List.mem_filter.mp hm2
  have e1 : srcListOf kv1.2 = [t1] := (projKeep_strict_iff t1 kv1.2).mp hp1
  have e2 : srcListOf kv2.2 = [t2] := (projKeep_strict_iff t2 kv2.2).mp hp2
  have hk1 : kv1 = (k, kv1.2) := by
    rw [← hf1]
  have hk2 : kv2 = (k, kv2.2) := by
    rw [← hf2]
  rw [hk1] at hs1
  rw [hk2] at hs2
  have : kv1.2 = kv2.2 := nodup_keys_unique hnd hs1 hs2
  rw [this, e2] at e1
  exact hne (List.cons.injEq _ _ _ _ |>.mp e1.symm).1

theorem strictFilter_cover {s : Store} {k : Str} {rec : RecT}
    (hmem : (k, rec) ∈ s) :
    (∃ t, t ∈ tagsOf s ∧
        (k, rec) ∈ s.filter (fun kv => projKeep true (some t) kv.2)) ↔
      (srcListOf rec).length = 1 := by
  constructor
  · rintro ⟨t, _, hm⟩
    have hp := (List.mem_filter.mp hm).2
    rw [(projKeep_strict_iff t rec).mp hp]
    rfl
  · intro hlen
    cases hl : srcListOf rec with
    | nil => rw [hl] at hlen; simp at hlen
    | cons t0 tl =>
      cases tl with
      | cons _ _ => rw [hl] at hlen; simp at hlen
      | nil =>
        refine ⟨t0, ?_, ?_⟩
        · unfold tagsOf
          refine List.mem_flatten.mpr ⟨srcListOf rec, ?_, ?_⟩
          · exact List.mem_map.mpr ⟨(k, rec), hmem, rfl⟩
          · rw [hl]
            exact List.mem_singleton_self t0
        · exact List.mem_filter.mpr ⟨hmem, (projKeep_strict_iff t0 rec).mpr hl⟩

theorem srcWF_nodup {s : Store} (h : srcWF s = true) : (keysOf s).Nodup := by
  unfold srcWF at h
  rw [Bool.and_eq_true] at h
  exact of_decide_eq_true h.1

/-- C7: over any family of strict (`strict=True`) projections of a
store, one per distinct source tag present, the projected key sets are
pairwise disjoint; their union covers exactly the records whose
source-tag set has exactly one member; and every projected entry is an
entry of the input store (the projection is a materialized read-only
view - the model is pure, so the input is unchanged by construction). -/
theorem strict_projection_partition (ns es : Store)
    (h1 : srcWF ns = true) (h2 : srcWF es = true) :
    (∀ t1 t2 k, t1 ≠ t2 →
      ¬(k ∈ keysOf (get_graph_for_source ns es (some t1) true false).1 ∧
        k ∈ keysOf (get_graph_for_source ns es (some t2) true false).1)) ∧
      (∀ t1 t2 k, t1 ≠ t2 →
        ¬(k ∈ keysOf (get_graph_for_source ns es (some t1) true false).2 ∧
          k ∈ keysOf (get_graph_for_source ns es (some t2) true false).2)) ∧
      (∀ k rec, (k, rec) ∈ ns →
        ((∃ t, t ∈ tagsOf ns ∧
            (k, rec) ∈ (get_graph_for_source ns es (some t) true false).1) ↔
          (srcListOf rec).length = 1)) ∧
      (∀ k rec, (k, rec) ∈ es →
        ((∃ t, t ∈ tagsOf es ∧
            (k, rec) ∈ (get_graph_for_source ns es (some t) true false).2) ↔
          (srcListOf rec).length = 1)) ∧
      (∀ t k rec,
        (k, rec) ∈ (get_graph_for_source ns es (some t) true false).1 →
          (k, rec) ∈ ns) ∧
      (∀ t k rec,
        (k, rec) ∈ (get_graph_for_source ns es (some t) true false).2 →
          (k, rec) ∈ es) := by
  refine ⟨?_, ?_, ?_, ?_, ?_, ?_⟩
  · intro t1 t2 k hne
    rw [proj_node_eq, proj_node_eq]
    exact strictFilter_disjoint (srcWF_nodup h1) hne
  · intro t1 t2 k hne
    rw [proj_edge_eq, proj_edge_eq]
    exact strictFilter_disjoint (srcWF_nodup h2) hne
  · intro k rec hmem
    simp only [proj_node_eq]
    exact strictFilter_cover hmem
  · intro k rec hmem
    simp only [proj_edge_eq]
    exact strictFilter_cover hmem
  · intro t k rec hm
    rw [proj_node_eq] at hm
    exact List.mem_of_mem_filter hm
  · intro t k rec hm
    rw [proj_edge_eq] at hm
    exact List.mem_of_mem_filter hm

theorem strict_projection_partition_witness :
    (∀ t1 t2 k, t1 ≠ t2 →
      ¬(k ∈ keysOf (get_graph_for_source nsC7 [] (some t1) true false).1 ∧
        k ∈ keysOf (get_graph_for_source nsC7 [] (some t2) true false).1)) ∧
      (∀ t1 t2 k, t1 ≠ t2 →
        ¬(k ∈ keysOf (get_graph_for_source nsC7 [] (some t1) true false).2 ∧
          k ∈ keysOf (get_graph_for_source nsC7 [] (some t2) true false).2)) ∧
      (∀ k rec, (k, rec) ∈ nsC7 →
        ((∃ t, t ∈ tagsOf nsC7 ∧
            (k, rec) ∈ (get_graph_for_source nsC7 [] (some t) true false).1) ↔
          (srcListOf rec).length = 1)) ∧
      (∀ k rec, (k, rec) ∈ ([] : Store) →
        ((∃ t, t ∈ tagsOf ([] : Store) ∧
            (k, rec) ∈ (get_graph_for_source nsC7 [] (some t) true false).2) ↔
          (srcListOf rec).length = 1)) ∧
      (∀ t k rec,
        (k, rec) ∈ (get_graph_for_source nsC7 [] (some t) true false).1 →
          (k, rec) ∈ nsC7) ∧
      (∀ t k rec,
        (k, rec) ∈ (get_graph_for_source nsC7 [] (some t) true false).2 →
          (k, rec) ∈ ([] : Store)) :=
  strict_projection_partition nsC7 [] (by decide) (by decide)

/-! Helper lemmas about the Python string primitives. -/

theorem pySplit_ne_nil (c : Char) (s : Str) : pySplit c s ≠ [] := by
  induction s with
  | nil => simp [pySplit]
  | cons x xs ih =>
    unfold pySplit
    by_cases hx : x = c
    · simp [hx]
    · rw [if_neg hx]
      cases hps : pySplit c xs with
      | nil => exact absurd hps ih
      | cons h t => simp

theorem pySplit_no_sep {c : Char} {s : Str} (h : c ∉ s) :
    pySplit c s = [s] := by
  induction s with
  | nil => rfl
  | cons x xs ih =>
    simp only [List.mem_cons, not_or] at h
    unfold pySplit
    rw [if_neg (fun hh => h.1 hh.symm), ih h.2]

theorem pySplit_cons (c x : Char) (xs : Str) :
    pySplit c (x :: xs) =
      if x = c then [] :: pySplit c xs
      else
        match pySplit c xs with
        | [] => [[x]]
        | h :: t => (x :: h) :: t := rfl

theorem pySplit_sep_append {c : Char} {s : Str} (r : Str) (h : c ∉ s) :
    pySplit c (s ++ c :: r) = s :: pySplit c r := by
  induction s with
  | nil =>
    simp only [List.nil_append]
    rw [pySplit_cons, if_pos rfl]
  | cons x xs ih =>
    simp only [List.mem_cons, not_or] at h
    simp only [List.cons_append]
    rw [pySplit_cons, if_neg (fun hh => h.1 hh.symm), ih h.2]

theorem pySplit_join {c : Char} {l : List Str} (hne : l ≠ [])
    (h : ∀ s ∈ l, c ∉ s) : pySplit c (pyJoin c l) = l := by
  induction l with
  | nil => exact absurd rfl hne
  | cons s rest ih =>
    cases rest with
    | nil =>
      show pySplit c (pyJoin c [s]) = [s]
      unfold pyJoin
      exact pySplit_no_sep (h s (List.mem_singleton_self s))
    | cons y t =>
      show pySplit c (pyJoin c (s :: y :: t)) = s :: y :: t
      unfold pyJoin
      rw [pySplit_sep_append _ (h s (List.mem_cons_self s _)),
        ih (by simp) (fun u hu => h u (List.mem_cons_of_mem _ hu))]

theorem pyRemove_eq_self {c : Char} {s : Str} (h : c ∉ s) :
    pyRemove c s = s := by
  unfold pyRemove
  refine List.filter_eq_self.mpr (fun a ha => ?_)
  simp only [ne_eq, decide_eq_true_eq]
  intro hac
  exact h (hac ▸ ha)

theorem pyRemove_not_mem (c : Char) (s : Str) : c ∉ pyRemove c s := by
  unfold pyRemove
  intro h
  have := List.of_mem_filter h
  simp at this

theorem mem_of_mem_pyRemove {x c : Char} {s : Str}
    (h : x ∈ pyRemove c s) : x ∈ s :=
  List.mem_of_mem_filter h

theorem mem_pyJoin {x : Char} {c : Char} {l : List Str}
    (h : x ∈ pyJoin c l) : x = c ∨ ∃ s ∈ l, x ∈ s := by
  induction l with
  | nil => simp [pyJoin] at h
  | cons s rest ih =>
    cases rest with
    | nil =>
      right
      exact ⟨s, List.mem_singleton_self s, h⟩
    | cons y t =>
      have h' : x ∈ s ++ c :: pyJoin c (y :: t) := h
      rcases List.mem_append.mp h' with hs | hc
      · exact Or.inr ⟨s, List.mem_cons_self s _, hs⟩
      · rcases List.mem_cons.mp hc with hx | hj
        · exact Or.inl hx
        · rcases ih hj with hx | ⟨u, hu, hxu⟩
          · exact Or.inl hx
          · exact Or.inr ⟨u, List.mem_cons_of_mem _ hu, hxu⟩

theorem stripQ_wrap {s : Str} (hq : '"' ∉ s) (hq' : '\'' ∉ s) :
    stripQ ('"' :: (s ++ ['"'])) = s := by
  unfold stripQ
  have h1 : pyRemove '"' ('"' :: (s ++ ['"'])) = s := by
    unfold pyRemove
    rw [List.filter_cons, List.filter_append]
    simp only [decide_eq_true_eq]
    rw [if_neg (by simp)]
    rw [List.filter_eq_self.mpr (fun a ha => by
      simp only [ne_eq, decide_eq_true_eq]
      intro hac
      exact hq (hac ▸ ha))]
    simp
  rw [h1]
  exact pyRemove_eq_self hq'

theorem okStr_spec {s : Str} (h : okStr s = true) :
    ';' ∉ s ∧ '"' ∉ s ∧ '\'' ∉ s ∧ '\t' ∉ s ∧ '\n' ∉ s := by
  refine ⟨fun hm => ?_, fun hm => ?_, fun hm => ?_, fun hm => ?_, fun hm => ?_⟩ <;>
    · have := List.all_eq_true.mp h _ hm
      simp at this

/-! Helper lemmas: one serialized field decodes back to its value. -/

theorem not_isEmpty_ne_nil {l : List Str} (h : (!l.isEmpty) = true) :
    l ≠ [] := by
  cases l with
  | nil => simp at h
  | cons x xs => simp

theorem decode_encode {a : Str} {v : AttrVal} (h : okVal a v = true) :
    decodeField a (encodeVal v) = v := by
  unfold okVal at h
  by_cases hm : pyInB LOAD_SET_MARK a = true
  · rw [if_pos hm] at h
    cases v with
    | s w => simp at h
    | set l =>
      simp only [Bool.and_eq_true, decide_eq_true_eq] at h
      obtain ⟨⟨⟨hne, hlen⟩, hnd⟩, hall⟩ := h
      have hmem : ∀ u ∈ l, ';' ∉ u ∧ '"' ∉ u ∧ '\'' ∉ u ∧ '\t' ∉ u ∧ '\n' ∉ u :=
        fun u hu => okStr_spec (List.all_eq_true.mp hall u hu)
      have hlne : l ≠ [] := not_isEmpty_ne_nil hne
      have htake : l.take 20 = l := List.take_of_length_le hlen
      have hjq : '"' ∉ pyJoin ';' l := by
        intro hx
        rcases mem_pyJoin hx with h1 | ⟨u, hu, hxu⟩
        · exact absurd h1 (by decide)
        · exact (hmem u hu).2.1 hxu
      have hjq' : '\'' ∉ pyJoin ';' l := by
        intro hx
        rcases mem_pyJoin hx with h1 | ⟨u, hu, hxu⟩
        · exact absurd h1 (by decide)
        · exact (hmem u hu).2.2.1 hxu
      have hnl : '\n' ∉ ('"' :: (pyJoin ';' (l.take 20) ++ ['"'])) := by
        rw [htake]
        intro hx
        rcases List.mem_cons.mp hx with h1 | h1
        · exact absurd h1 (by decide)
        · rcases List.mem_append.mp h1 with h2 | h2
          · rcases mem_pyJoin h2 with h3 | ⟨u, hu, hxu⟩
            · exact absurd h3 (by decide)
            · exact (hmem u hu).2.2.2.2 hxu
          · simp at h2
      simp only [encodeVal]
      unfold decodeField
      rw [if_pos hm, pyRemove_eq_self hnl, htake, stripQ_wrap hjq hjq',
        pySplit_join hlne (fun u hu => (hmem u hu).1)]
      unfold pyDedup
      rw [List.dedup_eq_self.mpr hnd]
  · cases v with
    | set l => rw [if_neg hm] at h; simp at h
    | s w =>
      rw [if_neg hm] at h
      have hw := okStr_spec (by simpa using h)
      simp only [encodeVal]
      unfold decodeField
      rw [if_neg hm, pyRemove_eq_self hw.2.2.2.2]

theorem encode_clean {a : Str} {v : AttrVal} (h : okVal a v = true) :
    '\t' ∉ encodeVal v ∧ '\n' ∉ encodeVal v := by
  refine ⟨?_, ?_⟩
  · unfold okVal at h
    by_cases hm : pyInB LOAD_SET_MARK a = true
    · rw [if_pos hm] at h
      cases v with
      | s w => simp at h
      | set l =>
        simp only [Bool.and_eq_true, decide_eq_true_eq] at h
        obtain ⟨⟨⟨_, _⟩, _⟩, hall⟩ := h
        unfold encodeVal
        intro hx
        have hx' := mem_of_mem_pyRemove hx
        rcases List.mem_cons.mp hx' with h1 | h1
        · exact absurd h1 (by decide)
        · rcases List.mem_append.mp h1 with h2 | h2
          · rcases mem_pyJoin h2 with h3 | ⟨u, hu, hxu⟩
            · exact absurd h3 (by decide)
            · exact (okStr_spec (List.all_eq_true.mp hall u
                (List.mem_of_mem_take hu))).2.2.2.1 hxu
          · simp at h2
    · cases v with
      | set l => rw [if_neg hm] at h; simp at h
      | s w =>
        rw [if_neg hm] at h
        unfold encodeVal
        intro hx
        exact (okStr_spec h).2.2.2.1 (mem_of_mem_pyRemove hx)
  · cases v with
    | s w => exact pyRemove_not_mem '\n' w
    | set l => exact pyRemove_not_mem '\n' _

theorem recGetD_aligned : ∀ (rec : RecT), (rec.map Prod.fst).Nodup →
    (rec.map Prod.fst).map (fun a => recGetD rec a) = rec.map Prod.snd := by
  intro rec
  induction rec with
  | nil => intro _; rfl
  | cons e rest ih =>
    intro hnd
    obtain ⟨k0, v0⟩ := e
    simp only [List.map_cons, List.nodup_cons] at hnd ⊢
    have h1 : recGetD ((k0, v0) :: rest) k0 = v0 := by
      unfold recGetD dlookup
      simp
    have h2 : List.map (fun a => recGetD ((k0, v0) :: rest) a)
        (List.map Prod.fst rest) =
          List.map (fun a => recGetD rest a) (List.map Prod.fst rest) :=
      List.map_congr_left (fun a ha => by
        have hne : k0 ≠ a := fun hh => hnd.1 (hh ▸ ha)
        unfold recGetD
        rw [show dlookup ((k0, v0) :: rest) a =
          if k0 = a then some v0 else dlookup rest a from rfl, if_neg hne])
    rw [h1, h2, ih hnd.2]

theorem recOfFields_encode : ∀ (rec : RecT),
    (∀ e ∈ rec, decodeField e.1 (encodeVal e.2) = e.2) →
    recOfFields (rec.map Prod.fst) (rec.map (fun e => encodeVal e.2)) = rec := by
  intro rec
  induction rec with
  | nil => intro _; rfl
  | cons e rest ih =>
    intro h
    simp only [List.map_cons]
    unfold recOfFields
    rw [h e (List.mem_cons_self e rest),
      ih (fun u hu => h u (List.mem_cons_of_mem _ hu))]

/-! Helper lemmas: the written file splits back into its rows. -/

theorem pyJoin_cons_cons (c : Char) (f g : Str) (t : List Str) :
    pyJoin c (f :: g :: t) = f ++ c :: pyJoin c (g :: t) := rfl

theorem pySplit_lines : ∀ (lines : List Str),
    (∀ li ∈ lines, '\n' ∉ li) →
    pySplit '\n' ((lines.map (fun l => l ++ ['\n'])).flatten) =
      lines ++ [[]] := by
  intro lines
  induction lines with
  | nil => intro _; rfl
  | cons li rest ih =>
    intro h
    simp only [List.map_cons, List.flatten_cons, List.append_assoc,
      List.singleton_append]
    rw [pySplit_sep_append _ (h li (List.mem_cons_self li rest)),
      ih (fun u hu => h u (List.mem_cons_of_mem _ hu))]
    rfl

theorem flatten_tab_ne_nil (g : Str) (t : List Str) :
    (((g :: t).map (fun f => f ++ ['\t'])).flatten) ≠ [] := by
  simp only [List.map_cons, List.flatten_cons]
  intro h
  rw [List.append_eq_nil] at h
  simpa using h.1

theorem rowBody_join : ∀ (fields : List Str), fields ≠ [] →
    ((fields.map (fun f => f ++ ['\t'])).flatten).dropLast =
      pyJoin '\t' fields := by
  intro fields
  induction fields with
  | nil => intro h; exact absurd rfl h
  | cons f rest ih =>
    intro _
    cases rest with
    | nil =>
      simp only [List.map_cons, List.map_nil, List.flatten_cons,
        List.flatten_nil, List.append_nil]
      rw [List.dropLast_concat]
      rfl
    | cons g t =>
      simp only [List.map_cons, List.flatten_cons]
      rw [List.dropLast_append_of_ne_nil _ (by simp)]
      have ihh := ih (by simp)
      simp only [List.map_cons, List.flatten_cons] at ihh
      rw [ihh, pyJoin_cons_cons]
      simp

theorem pyJoin_tab_no_newline {fields : List Str}
    (h : ∀ f ∈ fields, '\n' ∉ f) : '\n' ∉ pyJoin '\t' fields := by
  intro hx
  rcases mem_pyJoin hx with h1 | ⟨u, hu, hxu⟩
  · exact absurd h1 (by decide)
  · exact h u hu hxu

theorem pyJoin_cons_cons_ne_nil (c : Char) (f g : Str) (t : List Str) :
    pyJoin c (f :: g :: t) ≠ [] := by
  rw [pyJoin_cons_cons]
  simp

theorem fileRows_write (attrs : List Str) (s : Store)
    (hh1 : '\n' ∉ pyJoin '\t' attrs) (hh2 : pyJoin '\t' attrs ≠ [])
    (hb1 : ∀ kv ∈ s, '\n' ∉ rowBody attrs kv.2)
    (hb2 : ∀ kv ∈ s, rowBody attrs kv.2 ≠ []) :
    fileRows (writeStore attrs s) =
      s.map (fun kv => rowBody attrs kv.2) := by
  have hrw : writeStore attrs s =
      (((pyJoin '\t' attrs :: s.map (fun kv => rowBody attrs kv.2)).map
        (fun l => l ++ ['\n'])).flatten) := by
    unfold writeStore rowLine
    simp only [List.map_cons, List.flatten_cons, List.map_map]
    rfl
  unfold fileRows
  rw [hrw, pySplit_lines _ (by
    intro li hli
    rcases List.mem_cons.mp hli with h1 | h1
    · rw [h1]; exact hh1
    · obtain ⟨kv, hkv, hkv2⟩ := List.mem_map.mp h1
      rw [← hkv2]; exact hb1 kv hkv)]
  rw [List.filter_append, List.filter_cons]
  rw [if_pos (by simpa using hh2)]
  rw [List.filter_eq_self.mpr (by
    intro row hrow
    obtain ⟨kv, hkv, hkv2⟩ := List.mem_map.mp hrow
    simpa [← hkv2] using hb2 kv hkv)]
  simp

/-! Helper lemmas: one written row parses back to its record. -/

theorem recWF_spec {attrs : List Str} {rec : RecT}
    (h : recWF attrs rec = true) :
    rec.map Prod.fst = attrs ∧ ∀ e ∈ rec, okVal e.1 e.2 = true := by
  unfold recWF at h
  rw [Bool.and_eq_true] at h
  exact ⟨by simpa using h.1, List.all_eq_true.mp h.2⟩

theorem fields_eq {attrs : List Str} {rec : RecT}
    (halign : rec.map Prod.fst = attrs) (hnd : attrs.Nodup) :
    attrs.map (fun a => encodeVal (recGetD rec a)) =
      rec.map (fun e => encodeVal e.2) := by
  subst halign
  have h := congrArg (List.map encodeVal) (recGetD_aligned rec hnd)
  simp only [List.map_map] at h ⊢
  exact h

theorem recGetD_scalar_clean {rec : RecT} {a v : Str}
    (hvals : ∀ e ∈ rec, okVal e.1 e.2 = true)
    (hv : recGetD rec a = AttrVal.s v)
    (ha : pyInB LOAD_SET_MARK a = false) : okStr v = true := by
  unfold recGetD at hv
  cases hdl : dlookup rec a with
  | none =>
    rw [hdl] at hv
    simp only [Option.getD_none] at hv
    cases hv
    rfl
  | some u =>
    rw [hdl] at hv
    simp only [Option.getD_some] at hv
    subst hv
    have hok := hvals (a, AttrVal.s v) (dlookup_mem hdl)
    unfold okVal at hok
    rw [if_neg (by simp [ha])] at hok
    exact hok

theorem encode_scalar_id {rec : RecT} {a v : Str}
    (hvals : ∀ e ∈ rec, okVal e.1 e.2 = true)
    (hv : recGetD rec a = AttrVal.s v)
    (ha : pyInB LOAD_SET_MARK a = false) :
    encodeVal (recGetD rec a) = v := by
  rw [hv]
  simp only [encodeVal]
  exact pyRemove_eq_self (okStr_spec (recGetD_scalar_clean hvals hv ha)).2.2.2.2

theorem rec_ne_nil_node {rec : RecT}
    (halign : rec.map Prod.fst = NODE_ATTRIBUTES) : rec ≠ [] := by
  intro h
  rw [h] at halign
  exact absurd halign (by decide)

theorem rec_ne_nil_edge {rec : RecT}
    (halign : rec.map Prod.fst = EDGE_ATTRIBUTES) : rec ≠ [] := by
  intro h
  rw [h] at halign
  exact absurd halign (by decide)

theorem row_split {attrs : List Str} {rec : RecT}
    (halign : rec.map Prod.fst = attrs) (hnd : attrs.Nodup)
    (hvals : ∀ e ∈ rec, okVal e.1 e.2 = true) (hrne : rec ≠ []) :
    pySplit '\t' (rowBody attrs rec) =
      attrs.map (fun a => encodeVal (recGetD rec a)) := by
  have hfe := fields_eq halign hnd
  have hfne : attrs.map (fun a => encodeVal (recGetD rec a)) ≠ [] := by
    rw [hfe]
    simp [hrne]
  have hnotab : ∀ f ∈ attrs.map (fun a => encodeVal (recGetD rec a)),
      '\t' ∉ f := by
    rw [hfe]
    intro f hf
    obtain ⟨e, he, hfe2⟩ := List.mem_map.mp hf
    rw [← hfe2]
    exact (encode_clean (hvals e he)).1
  unfold rowBody
  rw [rowBody_join _ hfne, pySplit_join hfne hnotab]

theorem node_row_spec {k : Str} {rec : RecT}
    (hwf : recWF NODE_ATTRIBUTES rec = true) (hk : nodeKeyed k rec = true) :
    pySplit '\t' (rowBody NODE_ATTRIBUTES rec) =
      NODE_ATTRIBUTES.map (fun a => encodeVal (recGetD rec a)) ∧
      (NODE_ATTRIBUTES.map (fun a => encodeVal (recGetD rec a))).getD 0 [] = k ∧
      recOfFields NODE_ATTRIBUTES
        (NODE_ATTRIBUTES.map (fun a => encodeVal (recGetD rec a))) = rec := by
  obtain ⟨halign, hvals⟩ := recWF_spec hwf
  have hnd : NODE_ATTRIBUTES.Nodup := by decide
  refine ⟨row_split halign hnd hvals (rec_ne_nil_node halign), ?_, ?_⟩
  · have h0 : (NODE_ATTRIBUTES.map
        (fun a => encodeVal (recGetD rec a))).getD 0 [] =
        encodeVal (recGetD rec curieID) := rfl
    rw [h0]
    unfold nodeKeyed at hk
    cases hv : recGetD rec curieID with
    | set l => rw [hv] at hk; simp at hk
    | s v =>
      rw [hv] at hk
      simp only [beq_iff_eq] at hk
      have he := encode_scalar_id hvals hv (by decide)
      rw [hv] at he
      rw [he]
      exact hk.symm
  · rw [fields_eq halign hnd, ← halign]
    exact recOfFields_encode rec (fun e he => decode_encode (hvals e he))

theorem edge_row_spec {k : Str} {rec : RecT}
    (hwf : recWF EDGE_ATTRIBUTES rec = true) (hk : edgeKeyed k rec = true) :
    pySplit '\t' (rowBody EDGE_ATTRIBUTES rec) =
      EDGE_ATTRIBUTES.map (fun a => encodeVal (recGetD rec a)) ∧
      ((EDGE_ATTRIBUTES.map (fun a => encodeVal (recGetD rec a))).getD 0 [] ++
        '_' :: (EDGE_ATTRIBUTES.map
          (fun a => encodeVal (recGetD rec a))).getD 1 [] ++
        '_' :: (EDGE_ATTRIBUTES.map
          (fun a => encodeVal (recGetD rec a))).getD 2 []) = k ∧
      recOfFields EDGE_ATTRIBUTES
        (EDGE_ATTRIBUTES.map (fun a => encodeVal (recGetD rec a))) = rec := by
  obtain ⟨halign, hvals⟩ := recWF_spec hwf
  have hnd : EDGE_ATTRIBUTES.Nodup := by decide
  refine ⟨row_split halign hnd hvals (rec_ne_nil_edge halign), ?_, ?_⟩
  · have h0 : (EDGE_ATTRIBUTES.map
        (fun a => encodeVal (recGetD rec a))).getD 0 [] =
        encodeVal (recGetD rec startIDA) := rfl
    have h1 : (EDGE_ATTRIBUTES.map
        (fun a => encodeVal (recGetD rec a))).getD 1 [] =
        encodeVal (recGetD rec endIDA) := rfl
    have h2 : (EDGE_ATTRIBUTES.map
        (fun a => encodeVal (recGetD rec a))).getD 2 [] =
        encodeVal (recGetD rec typeA) := rfl
    rw [h0, h1, h2]
    unfold edgeKeyed at hk
    cases hv0 : recGetD rec startIDA with
    | set l => rw [hv0] at hk; simp at hk
    | s v0 =>
      cases hv1 : recGetD rec endIDA with
      | set l => rw [hv0, hv1] at hk; simp at hk
      | s v1 =>
        cases hv2 : recGetD rec typeA with
        | set l => rw [hv0, hv1, hv2] at hk; simp at hk
        | s v2 =>
          rw [hv0, hv1, hv2] at hk
          simp only [beq_iff_eq] at hk
          have he0 := encode_scalar_id hvals hv0 (by decide)
          have he1 := encode_scalar_id hvals hv1 (by decide)
          have he2 := encode_scalar_id hvals hv2 (by decide)
          rw [hv0] at he0
          rw [hv1] at he1
          rw [hv2] at he2
          rw [he0, he1, he2]
          exact hk.symm
  · rw [fields_eq halign hnd, ← halign]
    exact recOfFields_encode rec (fun e he => decode_encode (hvals e he))

theorem rowBody_no_newline {attrs : List Str} {rec : RecT}
    (halign : rec.map Prod.fst = attrs) (hnd : attrs.Nodup)
    (hvals : ∀ e ∈ rec, okVal e.1 e.2 = true) (hrne : rec ≠ []) :
    '\n' ∉ rowBody attrs rec := by
  have hfe := fields_eq halign hnd
  have hfne : attrs.map (fun a => encodeVal (recGetD rec a)) ≠ [] := by
    rw [hfe]
    simp [hrne]
  unfold rowBody
  rw [rowBody_join _ hfne]
  refine pyJoin_tab_no_newline (fun f hf => ?_)
  rw [hfe] at hf
  obtain ⟨e, he, hfe2⟩ := List.mem_map.mp hf
  rw [← hfe2]
  exact (encode_clean (hvals e he)).2

theorem rowBody_ne_nil {attrs : List Str} {rec : RecT}
    (hlen : 2 ≤ attrs.length) : rowBody attrs rec ≠ [] := by
  cases attrs with
  | nil => simp at hlen
  | cons a rest =>
    cases rest with
    | nil => simp at hlen
    | cons b t =>
      unfold rowBody
      rw [rowBody_join _ (by simp)]
      simp only [List.map_cons]
      exact pyJoin_cons_cons_ne_nil _ _ _ _

theorem foldl_nodeRowStep : ∀ (s acc : Store),
    (∀ kv ∈ s, recWF NODE_ATTRIBUTES kv.2 = true ∧
      nodeKeyed kv.1 kv.2 = true) →
    (keysOf s).Nodup → (∀ k ∈ keysOf s, dlookup acc k = none) →
    List.foldl nodeRowStep acc
      (s.map (fun kv => rowBody NODE_ATTRIBUTES kv.2)) = acc ++ s := by
  intro s
  induction s with
  | nil => intro acc _ _ _; simp
  | cons kv rest ih =>
    intro acc hall hnd hacc
    simp only [keysOf, List.map_cons, List.nodup_cons] at hnd
    have hspec := node_row_spec (hall kv (List.mem_cons_self kv rest)).1
      (hall kv (List.mem_cons_self kv rest)).2
    have hstep : nodeRowStep acc (rowBody NODE_ATTRIBUTES kv.2) =
        acc ++ [kv] := by
      unfold nodeRowStep
      rw [hspec.1, hspec.2.1, hspec.2.2]
      exact dassign_fresh _ _ _ (hacc kv.1 (by simp [keysOf]))
    simp only [List.map_cons, List.foldl_cons]
    rw [hstep, ih (acc ++ [kv])
      (fun u hu => hall u (List.mem_cons_of_mem _ hu))
      hnd.2
      (fun u hu => dlookup_append_sing_ne _ _ _ _
        (hacc u (by simp [keysOf]; right; simpa [keysOf] using hu))
        (fun hh => hnd.1 (hh ▸ (by simpa [keysOf] using hu))))]
    simp

theorem foldl_edgeRowStep : ∀ (s acc : Store),
    (∀ kv ∈ s, recWF EDGE_ATTRIBUTES kv.2 = true ∧
      edgeKeyed kv.1 kv.2 = true) →
    (keysOf s).Nodup → (∀ k ∈ keysOf s, dlookup acc k = none) →
    List.foldl edgeRowStep acc
      (s.map (fun kv => rowBody EDGE_ATTRIBUTES kv.2)) = acc ++ s := by
  intro s
  induction s with
  | nil => intro acc _ _ _; simp
  | cons kv rest ih =>
    intro acc hall hnd hacc
    simp only [keysOf, List.map_cons, List.nodup_cons] at hnd
    have hspec := edge_row_spec (hall kv (List.mem_cons_self kv rest)).1
      (hall kv (List.mem_cons_self kv rest)).2
    have hstep : edgeRowStep acc (rowBody EDGE_ATTRIBUTES kv.2) =
        acc ++ [kv] := by
      unfold edgeRowStep
      rw [hspec.1, hspec.2.1, hspec.2.2]
      exact dassign_fresh _ _ _ (hacc kv.1 (by simp [keysOf]))
    simp only [List.map_cons, List.foldl_cons]
    rw [hstep, ih (acc ++ [kv])
      (fun u hu => hall u (List.mem_cons_of_mem _ hu))
      hnd.2
      (fun u hu => dlookup_append_sing_ne _ _ _ _
        (hacc u (by simp [keysOf]; right; simpa [keysOf] using hu))
        (fun hh => hnd.1 (hh ▸ (by simpa [keysOf] using hu))))]
    simp

theorem nodeStoreWF_spec {s : Store} (h : nodeStoreWF s = true) :
    (keysOf s).Nodup ∧ ∀ kv ∈ s, recWF NODE_ATTRIBUTES kv.2 = true ∧
      nodeKeyed kv.1 kv.2 = true := by
  unfold nodeStoreWF at h
  rw [Bool.and_eq_true] at h
  refine ⟨of_decide_eq_true h.1, fun kv hkv => ?_⟩
  have h2 := List.all_eq_true.mp h.2 kv hkv
  rwa [Bool.and_eq_true] at h2

theorem edgeStoreWF_spec {s : Store} (h : edgeStoreWF s = true) :
    (keysOf s).Nodup ∧ ∀ kv ∈ s, recWF EDGE_ATTRIBUTES kv.2 = true ∧
      edgeKeyed kv.1 kv.2 = true := by
  unfold edgeStoreWF at h
  rw [Bool.and_eq_true] at h
  refine ⟨of_decide_eq_true h.1, fun kv hkv => ?_⟩
  have h2 := List.all_eq_true.mp h.2 kv hkv
  rwa [Bool.and_eq_true] at h2

theorem parse_write_node (s : Store) (h : nodeStoreWF s = true) :
    parseNodeInto [] (writeNodeSet s) = s := by
  obtain ⟨hnd, hall⟩ := nodeStoreWF_spec h
  unfold parseNodeInto writeNodeSet
  rw [fileRows_write NODE_ATTRIBUTES s (by decide) (by decide)
    (fun kv hkv => rowBody_no_newline (recWF_spec (hall kv hkv).1).1
      (by decide) (recWF_spec (hall kv hkv).1).2
      (rec_ne_nil_node (recWF_spec (hall kv hkv).1).1))
    (fun kv _ => rowBody_ne_nil (by decide))]
  rw [foldl_nodeRowStep s [] hall hnd (fun k _ => rfl)]
  rfl

theorem parse_write_edge (s : Store) (h : edgeStoreWF s = true) :
    parseEdgeInto [] (writeEdgeSet s) = s := by
  obtain ⟨hnd, hall⟩ := edgeStoreWF_spec h
  unfold parseEdgeInto writeEdgeSet
  rw [fileRows_write EDGE_ATTRIBUTES s (by decide) (by decide)
    (fun kv hkv => rowBody_no_newline (recWF_spec (hall kv hkv).1).1
      (by decide) (recWF_spec (hall kv hkv).1).2
      (rec_ne_nil_edge (recWF_spec (hall kv hkv).1).1))
    (fun kv _ => rowBody_ne_nil (by decide))]
  rw [foldl_edgeRowStep s [] hall hnd (fun k _ => rfl)]
  rfl

/-- C2 counterexample, inside the claim's own preconditions (at most 20
members per multi-valued field, no semicolon / quote / tab / newline in
any value).  (1) A node whose multi-valued fields are empty sets reads
back with `{""}` in each of them (an empty set serializes as `""` and
`"".split(";") == [""]`), so the reloaded store is not equal to the
original.  (2) An edge store keyed `a_b:t` by update_edges reads back
keyed `a_b_t`, so the key sets differ.  (3) A node lacking `curie:ID`
is stored under `no_id` but reads back under `""`. -/
theorem serializer_roundtrip_cex :
    ((dlookup (parseNodeInto [] (writeNodeSet sC2a)) "A".data).map
        (fun rec => setMem (recGetD rec srcAttr) []) = some true ∧
      (dlookup sC2a "A".data).map
        (fun rec => setMem (recGetD rec srcAttr) []) = some false) ∧
      (keysOf (parseEdgeInto [] (writeEdgeSet sC2b)) = ["a_b_t".data] ∧
        keysOf sC2b = ["a_b:t".data] ∧ "a_b_t".data ≠ "a_b:t".data) ∧
      (keysOf (parseNodeInto [] (writeNodeSet sC2c)) = [[]] ∧
        keysOf sC2c = ["no_id".data] ∧ ([] : Str) ≠ "no_id".data) := by
  refine ⟨⟨?_, ?_⟩, ⟨?_, ?_, ?_⟩, ⟨?_, ?_, ?_⟩⟩ <;> first | rfl | decide

/-- C2 as amended: the serializer round-trip holds for every
well-formed store - records aligned with the schema, filed under their
identity fields in the loader's key format (`curie:ID` for nodes,
`head_tail_relation` for edges), with distinct keys, and every
multi-valued field non-empty with at most 20 duplicate-free members,
all values free of semicolons, quotes, tabs and newlines.  Reading the
written file into a fresh set reproduces the store exactly.  (The
pandas layer is modelled at string level; its numeric dtype inference
is outside the model.) -/
theorem serializer_roundtrip_wf (ns es : Store) (fsn fse : FS)
    (pn pe : Str) (hn : nodeStoreWF ns = true) (he : edgeStoreWF es = true)
    (hfn : fsn pn = some (writeNodeSet ns))
    (hfe : fse pe = some (writeEdgeSet es)) :
    loadNodeSet fsn pn [] = ns ∧ loadEdgeSet fse pe [] = es := by
  unfold loadNodeSet loadEdgeSet
  rw [hfn, hfe]
  exact ⟨parse_write_node ns hn, parse_write_edge es he⟩

theorem serializer_roundtrip_wf_witness :
    loadNodeSet (fun _ => some (writeNodeSet nsC2w)) "nodes.tsv".data [] =
      nsC2w ∧
      loadEdgeSet (fun _ => some (writeEdgeSet esC2w)) "edges.tsv".data [] =
        esC2w :=
  serializer_roundtrip_wf nsC2w esC2w
    (fun _ => some (writeNodeSet nsC2w)) (fun _ => some (writeEdgeSet esC2w))
    "nodes.tsv".data "edges.tsv".data (by decide) (by decide) rfl rfl
